import Mathlib

/-!
Verification of the equal-area polygon partitioning core of `smartpy_arc`
(`poly_splitting.py`): the binary-search area bisector `split_poly` and the
recursive part-count allocator `recursive_split`.

The external geometry capability (arcpy polygons) is modelled by the `Geom`
structure: an opaque polygon type with planar area, a bounding extent, and
rectangle clipping that may fail.  Numbers are exact rationals.  The
bisector's unbounded `while` loop is given an explicit fuel parameter: a
`none` overall result means the loop has still not returned within that many
iterations.  The partitioner's observable behaviour is its trace of consumer
callback invocations; dereferencing a `None` polygon (a Python
`AttributeError`) is the `crash` outcome.  Randomness (`random.random() > 0.5`
on odd part counts) is an injected stream of coins.
-/

namespace SmartpyArc

/-- An axis-aligned rectangle, mirroring `arcpy.Extent(xmin, ymin, xmax, ymax)`. -/
structure Extent where
  xmin : ℚ
  ymin : ℚ
  xmax : ℚ
  ymax : ℚ
  deriving DecidableEq

/-- `mbr.width` of an extent. -/
def Extent.width (e : Extent) : ℚ := e.xmax - e.xmin

/-- `mbr.height` of an extent. -/
def Extent.height (e : Extent) : ℚ := e.ymax - e.ymin

/-- The external polygon capability: planar area, bounding extent, and
clipping against an axis-aligned rectangle (which may return nothing,
like arcpy's `clip`). -/
structure Geom (P : Type) where
  area : P → ℚ
  extent : P → Extent
  clip : P → Extent → Option P

/-- Split orientation selection of `split_poly`: horizontal (vary X) when the
bounding box is wider than tall (`w > h`), else vertical (vary Y). -/
def isHoriz (e : Extent) : Bool := decide (e.height < e.width)

/-- The left split envelope built at midpoint `dMid`
(`poly_splitting.py` lines 57 and 61). -/
def leftSplitter (e : Extent) (horiz : Bool) (dMid : ℚ) : Extent :=
  if horiz then ⟨e.xmin - 100, e.ymin - 100, dMid, e.ymax + 100⟩
  else ⟨e.xmin - 100, e.ymin - 100, e.xmax + 100, dMid⟩

/-- The right split envelope built at midpoint `dMid`
(`poly_splitting.py` lines 58 and 62; note the `xmax + 1`, as in the source). -/
def rightSplitter (e : Extent) (horiz : Bool) (dMid : ℚ) : Extent :=
  if horiz then ⟨dMid, e.ymin - 100, e.xmax + 1, e.ymax + 100⟩
  else ⟨e.xmin - 100, dMid, e.xmax + 100, e.ymax + 100⟩

/-- The `while dMin < dMax` search loop of `split_poly` (lines 52-82).
The result pairs the returned `(left, right)` tuple with the number of clip
calls made; an overall `none` means the loop has not returned within `fuel`
iterations (the source loop has no iteration cap). -/
def split_search {P : Type} (G : Geom P) (poly : P) (horiz : Bool) (ext : Extent)
    (targetArea tol : ℚ) : ℚ → ℚ → ℕ → Option ((Option P × Option P) × ℕ)
  | _, _, 0 => none
  | dMin, dMax, fuel + 1 =>
    if dMin < dMax then
      let dMid := (dMin + dMax) / 2
      match G.clip poly (leftSplitter ext horiz dMid) with
      | none => some ((none, none), 1)
      | some left =>
        let leftArea := G.area left
        if |1 - leftArea / targetArea| ≤ tol then
          some ((some left, G.clip poly (rightSplitter ext horiz dMid)), 2)
        else if targetArea < leftArea then
          (split_search G poly horiz ext targetArea tol dMin dMid fuel).map
            (fun rc => (rc.1, rc.2 + 1))
        else
          (split_search G poly horiz ext targetArea tol dMid dMax fuel).map
            (fun rc => (rc.1, rc.2 + 1))
    else some ((none, none), 0)

/-- `split_poly(poly, target_area, search_tolerance)` (lines 13-82): the
area-targeted bisector.  Returns the `(left, right)` pair together with the
number of clip calls performed; `none` means the search loop is still
running after `fuel` iterations. -/
def split_poly {P : Type} (G : Geom P) (fuel : ℕ) (poly : Option P)
    (targetArea tol : ℚ) : Option ((Option P × Option P) × ℕ) :=
  match poly with
  | none => some ((none, none), 0)
  | some p =>
    if G.area p ≤ targetArea then some ((none, none), 0)
    else
      let ext := G.extent p
      if isHoriz ext then
        split_search G p true ext targetArea tol ext.xmin ext.xmax fuel
      else
        split_search G p false ext targetArea tol ext.ymin ext.ymax fuel

/-- The left/right share computation of `recursive_split` (lines 113-125):
given the coin drawn for an odd part count, the requested number of parts and
the polygon area, produce `(left_area, left_parts, right_parts)`. -/
def split_shares (coin : Bool) (numParts : ℤ) (polyArea : ℚ) : ℚ × ℤ × ℤ :=
  if numParts % 2 = 0 then
    (polyArea / 2, numParts / 2, numParts / 2)
  else
    let leftParts : ℤ := if coin then (numParts + 1) / 2 else numParts / 2
    ((leftParts : ℚ) * (polyArea / (numParts : ℚ)), leftParts, numParts - leftParts)

/-- Abnormal outcomes of a `recursive_split` run: `crash` is a Python
`AttributeError` from dereferencing a `None` polygon; `fuelOut` means some
bisector search loop (or the recursion-depth budget) did not return within
its fuel. -/
inductive RunErr where
  | crash
  | fuelOut
  deriving DecidableEq

/-- `recursive_split(poly, num_parts, on_done_splitting, search_tolerance)`
(lines 105-132).  The observable behaviour is the list of polygons passed to
the consumer callback, in order, together with the next coin index and the
number of bisector (`split_poly`) invocations made.  As in the source, the
`(left, right)` pair returned by `split_poly` is recursed into without any
check: a failed split passes `none` down both branches. -/
def recursive_split {P : Type} (G : Geom P) (loopFuel : ℕ) (coins : ℕ → Bool)
    (fuel : ℕ) (poly : Option P) (numParts : ℤ) (tol : ℚ) (ci : ℕ) :
    Except RunErr (List (Option P) × ℕ × ℕ) :=
  if numParts ≤ 1 then
    .ok ([poly], ci, 0)
  else
    match fuel, poly with
    | _, none => .error .crash
    | 0, some _ => .error .fuelOut
    | fuel + 1, some p =>
      match split_poly G loopFuel (some p)
          (split_shares (coins ci) numParts (G.area p)).1 tol with
      | none => .error .fuelOut
      | some (lr, _) =>
        match recursive_split G loopFuel coins fuel lr.1
            (split_shares (coins ci) numParts (G.area p)).2.1 tol
            (if numParts % 2 = 0 then ci else ci + 1) with
        | .error e => .error e
        | .ok (traceL, ci3, bL) =>
          match recursive_split G loopFuel coins fuel lr.2
              (split_shares (coins ci) numParts (G.area p)).2.2 tol ci3 with
          | .error e => .error e
          | .ok (traceR, ci4, bR) => .ok (traceL ++ traceR, ci4, 1 + bL + bR)

/-! ### Concrete geometry instances

These model particular behaviours of the external clipping engine, for use
as concrete inputs.  `FinGeom` is a fully lawful engine over finite point
sets: area is cardinality, the extent is the bounding box of the points, and
clipping keeps the points inside a half-open reading of the rectangle. -/

/-- A constant-false coin stream. -/
def cFalse : ℕ → Bool := fun _ => false

/-- A polygon of area `1` on a unit extent whose every clip fails
(returns nothing), so the bisector search fails on the first probe. -/
def GNone : Geom Unit := ⟨fun _ => 1, fun _ => ⟨0, 0, 1, 1⟩, fun _ _ => none⟩

/-- A polygon of area `1` on a unit extent whose every clip returns the whole
polygon back, so the measured left area never meets the tolerance test. -/
def Gdiv : Geom Unit := ⟨fun _ => 1, fun _ => ⟨0, 0, 1, 1⟩, fun _ _ => some ()⟩

/-- An engine in which polygon `0` (area `2`, extent `0,0,2,1`) clips to
polygon `1` (area `1`) against the first left envelope probed, while every
other clip — in particular the right envelope — returns nothing. -/
def GOne : Geom ℕ :=
  ⟨fun p => if p = 0 then 2 else 1,
   fun _ => ⟨0, 0, 2, 1⟩,
   fun p e => if p = 0 ∧ e = leftSplitter ⟨0, 0, 2, 1⟩ true 1 then some 1 else none⟩

/-- Clipping of a finite point set: keep the points in a half-open reading
of the rectangle (strict on the min side, inclusive on the max side). -/
def finClip (p : Finset (ℚ × ℚ)) (e : Extent) : Option (Finset (ℚ × ℚ)) :=
  some (p.filter (fun z => e.xmin < z.1 ∧ z.1 ≤ e.xmax ∧ e.ymin < z.2 ∧ z.2 ≤ e.ymax))

/-- Bounding box of a finite point set (degenerate at the origin when empty). -/
def finExtent (p : Finset (ℚ × ℚ)) : Extent :=
  if h : p.Nonempty then
    ⟨p.inf' h Prod.fst, p.inf' h Prod.snd, p.sup' h Prod.fst, p.sup' h Prod.snd⟩
  else ⟨0, 0, 0, 0⟩

/-- The finite-point-set geometry engine: area is cardinality. -/
def FinGeom : Geom (Finset (ℚ × ℚ)) := ⟨fun p => (p.card : ℚ), finExtent, finClip⟩

/-- A two-point polygon of area `2`: splitting it in two parts succeeds with
one point on each side. -/
def p2 : Finset (ℚ × ℚ) := {(1/2, 1/2), (3/2, 1/2)}

/-- The left piece of the successful bisection of `p2`. -/
def p2L : Finset (ℚ × ℚ) := {(1/2, 1/2)}

/-- The right piece of the successful bisection of `p2`. -/
def p2R : Finset (ℚ × ℚ) := {(3/2, 1/2)}

/-! ### Helper lemmas -/

/-- If every left clip of `p` produces a piece whose area fails the
tolerance test, the search loop never returns: the midpoint stays strictly
between the bounds, so the interval never collapses (exact arithmetic) and
no iteration takes a returning branch. -/
theorem split_search_stuck {P : Type} (G : Geom P) (p : P) (horiz : Bool)
    (ext : Extent) (target tol : ℚ)
    (hcl : ∀ e, ∃ q, G.clip p e = some q ∧ ¬(|1 - G.area q / target| ≤ tol)) :
    ∀ (fuel : ℕ) (dMin dMax : ℚ), dMin < dMax →
      split_search G p horiz ext target tol dMin dMax fuel = none := by
  intro fuel
  induction fuel with
  | zero => intro dMin dMax _; rfl
  | succ fuel ih =>
    intro dMin dMax h
    obtain ⟨q, hq, ht⟩ := hcl (leftSplitter ext horiz ((dMin + dMax) / 2))
    rw [split_search, if_pos h]
    simp only [hq]
    rw [if_neg ht]
    have h1 : dMin < (dMin + dMax) / 2 := by linarith
    have h2 : (dMin + dMax) / 2 < dMax := by linarith
    by_cases hd : target < G.area q
    · rw [if_pos hd, ih dMin ((dMin + dMax) / 2) h1]; rfl
    · rw [if_neg hd, ih ((dMin + dMax) / 2) dMax h2]; rfl

/-- Any search-loop result whose left component is present arises from the
convergence branch: the left piece's area is within tolerance of the target,
and at the converged midpoint the left piece is the left clip and the right
component is the raw right clip. -/
theorem split_search_some_left {P : Type} (G : Geom P) (p : P) (horiz : Bool)
    (ext : Extent) (target tol : ℚ) :
    ∀ (fuel : ℕ) (dMin dMax : ℚ) (l : P) (r : Option P) (c : ℕ),
      split_search G p horiz ext target tol dMin dMax fuel = some ((some l, r), c) →
      |1 - G.area l / target| ≤ tol ∧
      ∃ dMid, G.clip p (leftSplitter ext horiz dMid) = some l ∧
        r = G.clip p (rightSplitter ext horiz dMid) := by
  intro fuel
  induction fuel with
  | zero =>
    intro dMin dMax l r c h
    exact absurd h (by simp [split_search])
  | succ fuel ih =>
    intro dMin dMax l r c h
    rw [split_search] at h
    by_cases hlt : dMin < dMax
    · rw [if_pos hlt] at h
      cases hcl : G.clip p (leftSplitter ext horiz ((dMin + dMax) / 2)) with
      | none =>
        simp only [hcl] at h
        exact absurd h (by simp)
      | some q =>
        simp only [hcl] at h
        by_cases htol : |1 - G.area q / target| ≤ tol
        · rw [if_pos htol] at h
          simp only [Option.some.injEq, Prod.mk.injEq] at h
          obtain ⟨⟨hq, hr⟩, -⟩ := h
          obtain rfl : q = l := hq
          exact ⟨htol, (dMin + dMax) / 2, hcl, hr.symm⟩
        · rw [if_neg htol] at h
          by_cases hgt : target < G.area q
          · rw [if_pos hgt] at h
            rw [Option.map_eq_some'] at h
            obtain ⟨⟨lr0, c0⟩, hrec, heq⟩ := h
            simp only [Prod.mk.injEq] at heq
            obtain ⟨h1, -⟩ := heq
            rw [h1] at hrec
            exact ih dMin ((dMin + dMax) / 2) l r c0 hrec
          · rw [if_neg hgt] at h
            rw [Option.map_eq_some'] at h
            obtain ⟨⟨lr0, c0⟩, hrec, heq⟩ := h
            simp only [Prod.mk.injEq] at heq
            obtain ⟨h1, -⟩ := heq
            rw [h1] at hrec
            exact ih ((dMin + dMax) / 2) dMax l r c0 hrec
    · rw [if_neg hlt] at h
      simp at h

/-- Any bisector result whose left component is present arises from the
convergence branch of the search loop, at some midpoint. -/
theorem split_poly_some_left {P : Type} (G : Geom P) (fuel : ℕ) (p : P)
    (target tol : ℚ) (l : P) (r : Option P) (c : ℕ)
    (h : split_poly G fuel (some p) target tol = some ((some l, r), c)) :
    |1 - G.area l / target| ≤ tol ∧
    ∃ dMid, G.clip p (leftSplitter (G.extent p) (isHoriz (G.extent p)) dMid) = some l ∧
      r = G.clip p (rightSplitter (G.extent p) (isHoriz (G.extent p)) dMid) := by
  have hstep : split_poly G fuel (some p) target tol =
      (if G.area p ≤ target then some ((none, none), 0)
       else if isHoriz (G.extent p) then
         split_search G p true (G.extent p) target tol
           (G.extent p).xmin (G.extent p).xmax fuel
       else
         split_search G p false (G.extent p) target tol
           (G.extent p).ymin (G.extent p).ymax fuel) := rfl
  rw [hstep] at h
  by_cases ha : G.area p ≤ target
  · rw [if_pos ha] at h
    simp at h
  · rw [if_neg ha] at h
    by_cases hh : isHoriz (G.extent p)
    · rw [if_pos hh] at h
      have := split_search_some_left G p true (G.extent p) target tol fuel _ _ l r c h
      simpa only [hh] using this
    · rw [if_neg hh] at h
      have := split_search_some_left G p false (G.extent p) target tol fuel _ _ l r c h
      simp only [Bool.not_eq_true] at hh
      simpa only [hh] using this

/-- Positivity and additivity of the part-count split: for `2 ≤ n` both
sides receive at least one part and the two sides sum to `n`. -/
theorem split_shares_pos (coin : Bool) (n : ℤ) (A : ℚ) (h : 2 ≤ n) :
    1 ≤ (split_shares coin n A).2.1 ∧ 1 ≤ (split_shares coin n A).2.2 ∧
      (split_shares coin n A).2.1 + (split_shares coin n A).2.2 = n := by
  unfold split_shares
  by_cases he : n % 2 = 0 <;> by_cases hc : coin <;>
    simp only [he, hc, if_true, if_false, if_pos, if_neg, not_false_iff] <;>
    simp <;> omega

/-- Base-case unfolding of `recursive_split`: at most one part requested. -/
theorem recursive_split_base {P : Type} (G : Geom P) (lf : ℕ) (coins : ℕ → Bool)
    (fuel : ℕ) (poly : Option P) (n : ℤ) (tol : ℚ) (ci : ℕ) (h : n ≤ 1) :
    recursive_split G lf coins fuel poly n tol ci = .ok ([poly], ci, 0) := by
  rw [recursive_split.eq_def]
  exact if_pos h

/-- A splitting step on a missing polygon dereferences it and crashes. -/
theorem recursive_split_none {P : Type} (G : Geom P) (lf : ℕ) (coins : ℕ → Bool)
    (fuel : ℕ) (n : ℤ) (tol : ℚ) (ci : ℕ) (h : ¬n ≤ 1) :
    recursive_split (P := P) G lf coins fuel none n tol ci = .error .crash := by
  rw [recursive_split.eq_def, if_neg h]
  cases fuel <;> rfl

/-- A splitting step with no recursion budget left reports fuel exhaustion. -/
theorem recursive_split_fuel0 {P : Type} (G : Geom P) (lf : ℕ) (coins : ℕ → Bool)
    (p : P) (n : ℤ) (tol : ℚ) (ci : ℕ) (h : ¬n ≤ 1) :
    recursive_split G lf coins 0 (some p) n tol ci = .error .fuelOut := by
  rw [recursive_split.eq_def, if_neg h]

/-- Unfolding of a splitting step of `recursive_split`: compute the shares,
call the bisector, and recurse into both halves of its result pair. -/
theorem recursive_split_step {P : Type} (G : Geom P) (lf : ℕ) (coins : ℕ → Bool)
    (fuel : ℕ) (p : P) (n : ℤ) (tol : ℚ) (ci : ℕ) (h : ¬n ≤ 1) :
    recursive_split G lf coins (fuel + 1) (some p) n tol ci =
      match split_poly G lf (some p) (split_shares (coins ci) n (G.area p)).1 tol with
      | none => .error .fuelOut
      | some (lr, _) =>
        match recursive_split G lf coins fuel lr.1
            (split_shares (coins ci) n (G.area p)).2.1 tol
            (if n % 2 = 0 then ci else ci + 1) with
        | .error e => .error e
        | .ok (traceL, ci3, bL) =>
          match recursive_split G lf coins fuel lr.2
              (split_shares (coins ci) n (G.area p)).2.2 tol ci3 with
          | .error e => .error e
          | .ok (traceR, ci4, bR) => .ok (traceL ++ traceR, ci4, 1 + bL + bR) := by
  rw [recursive_split.eq_def]
  exact if_neg h

/-- Splitting step of `recursive_split` conditioned on the bisector result:
once the bisector returns a pair, the run is the left recursion followed by
the right recursion on that pair's components. -/
theorem recursive_split_step_some {P : Type} (G : Geom P) (lf : ℕ)
    (coins : ℕ → Bool) (fuel : ℕ) (p : P) (n : ℤ) (tol : ℚ) (ci : ℕ)
    (lr : Option P × Option P) (c : ℕ) (h : ¬n ≤ 1)
    (hsp : split_poly G lf (some p) (split_shares (coins ci) n (G.area p)).1 tol =
      some (lr, c)) :
    recursive_split G lf coins (fuel + 1) (some p) n tol ci =
      match recursive_split G lf coins fuel lr.1
          (split_shares (coins ci) n (G.area p)).2.1 tol
          (if n % 2 = 0 then ci else ci + 1) with
      | .error e => .error e
      | .ok (traceL, ci3, bL) =>
        match recursive_split G lf coins fuel lr.2
            (split_shares (coins ci) n (G.area p)).2.2 tol ci3 with
        | .error e => .error e
        | .ok (traceR, ci4, bR) => .ok (traceL ++ traceR, ci4, 1 + bL + bR) := by
  rw [recursive_split_step G lf coins fuel p n tol ci h, hsp]

/-- A splitting step whose bisector search does not return within its fuel
reports fuel exhaustion. -/
theorem recursive_split_no_split {P : Type} {G : Geom P} {lf : ℕ}
    {coins : ℕ → Bool} {p : P} {n : ℤ} {tol : ℚ} {ci : ℕ} (fuel : ℕ)
    (h : ¬n ≤ 1)
    (hsp : split_poly G lf (some p) (split_shares (coins ci) n (G.area p)).1 tol =
      none) :
    recursive_split G lf coins (fuel + 1) (some p) n tol ci = .error .fuelOut := by
  rw [recursive_split_step G lf coins fuel p n tol ci h, hsp]

/-- A splitting step whose left recursion fails propagates that error. -/
theorem recursive_split_step_errL {P : Type} {G : Geom P} {lf : ℕ}
    {coins : ℕ → Bool} {p : P} {n : ℤ} {tol : ℚ} {ci : ℕ}
    {lr : Option P × Option P} {c : ℕ} {e : RunErr} (fuel : ℕ)
    (h : ¬n ≤ 1)
    (hsp : split_poly G lf (some p) (split_shares (coins ci) n (G.area p)).1 tol =
      some (lr, c))
    (hL : recursive_split G lf coins fuel lr.1
        (split_shares (coins ci) n (G.area p)).2.1 tol
        (if n % 2 = 0 then ci else ci + 1) = .error e) :
    recursive_split G lf coins (fuel + 1) (some p) n tol ci = .error e := by
  rw [recursive_split_step_some G lf coins fuel p n tol ci lr c h hsp, hL]

/-- A splitting step whose left recursion succeeds continues with the right
recursion on the bisector pair's second component. -/
theorem recursive_split_step_okL {P : Type} {G : Geom P} {lf : ℕ}
    {coins : ℕ → Bool} {p : P} {n : ℤ} {tol : ℚ} {ci : ℕ}
    {lr : Option P × Option P} {c : ℕ} {traceL : List (Option P)} {ci3 bL : ℕ}
    (fuel : ℕ)
    (h : ¬n ≤ 1)
    (hsp : split_poly G lf (some p) (split_shares (coins ci) n (G.area p)).1 tol =
      some (lr, c))
    (hL : recursive_split G lf coins fuel lr.1
        (split_shares (coins ci) n (G.area p)).2.1 tol
        (if n % 2 = 0 then ci else ci + 1) = .ok (traceL, ci3, bL)) :
    recursive_split G lf coins (fuel + 1) (some p) n tol ci =
      match recursive_split G lf coins fuel lr.2
          (split_shares (coins ci) n (G.area p)).2.2 tol ci3 with
      | .error e => .error e
      | .ok (traceR, ci4, bR) => .ok (traceL ++ traceR, ci4, 1 + bL + bR) := by
  rw [recursive_split_step_some G lf coins fuel p n tol ci lr c h hsp, hL]

/-- A splitting step whose right recursion fails propagates that error. -/
theorem recursive_split_step_errR {P : Type} {G : Geom P} {lf : ℕ}
    {coins : ℕ → Bool} {p : P} {n : ℤ} {tol : ℚ} {ci : ℕ}
    {lr : Option P × Option P} {c : ℕ} {traceL : List (Option P)} {ci3 bL : ℕ}
    {e : RunErr} (fuel : ℕ)
    (h : ¬n ≤ 1)
    (hsp : split_poly G lf (some p) (split_shares (coins ci) n (G.area p)).1 tol =
      some (lr, c))
    (hL : recursive_split G lf coins fuel lr.1
        (split_shares (coins ci) n (G.area p)).2.1 tol
        (if n % 2 = 0 then ci else ci + 1) = .ok (traceL, ci3, bL))
    (hR : recursive_split G lf coins fuel lr.2
        (split_shares (coins ci) n (G.area p)).2.2 tol ci3 = .error e) :
    recursive_split G lf coins (fuel + 1) (some p) n tol ci = .error e := by
  rw [recursive_split_step_okL fuel h hsp hL, hR]

/-- A splitting step with both recursions succeeding concatenates the left
trace and the right trace and counts one more bisector call. -/
theorem recursive_split_step_ok {P : Type} {G : Geom P} {lf : ℕ}
    {coins : ℕ → Bool} {p : P} {n : ℤ} {tol : ℚ} {ci : ℕ}
    {lr : Option P × Option P} {c : ℕ} {traceL traceR : List (Option P)}
    {ci3 bL ci4 bR : ℕ} (fuel : ℕ)
    (h : ¬n ≤ 1)
    (hsp : split_poly G lf (some p) (split_shares (coins ci) n (G.area p)).1 tol =
      some (lr, c))
    (hL : recursive_split G lf coins fuel lr.1
        (split_shares (coins ci) n (G.area p)).2.1 tol
        (if n % 2 = 0 then ci else ci + 1) = .ok (traceL, ci3, bL))
    (hR : recursive_split G lf coins fuel lr.2
        (split_shares (coins ci) n (G.area p)).2.2 tol ci3 = .ok (traceR, ci4, bR)) :
    recursive_split G lf coins (fuel + 1) (some p) n tol ci =
      .ok (traceL ++ traceR, ci4, 1 + bL + bR) := by
  rw [recursive_split_step_okL fuel h hsp hL, hR]

/-- Union of the point sets of a list of parts. -/
def partsUnion {P pt : Type} (toSet : P → Set pt) : List P → Set pt
  | [] => ∅
  | q :: rest => toSet q ∪ partsUnion toSet rest

/-- `partsUnion` distributes over list concatenation. -/
theorem partsUnion_append {P pt : Type} (toSet : P → Set pt) (a b : List P) :
    partsUnion toSet (a ++ b) = partsUnion toSet a ∪ partsUnion toSet b := by
  induction a with
  | nil => simp [partsUnion]
  | cons q rest ih => simp [partsUnion, ih, Set.union_assoc]

/-- A lawful reading of a geometry engine: each polygon denotes a set of
points, and the two complementary clip envelopes used by the bisector
partition the polygon exactly — their pieces are disjoint, cover the
polygon, and their areas add up to its area. -/
structure GeomLaws {P : Type} (G : Geom P) (pt : Type) where
  toSet : P → Set pt
  split_partition : ∀ (p : P) (dMid : ℚ) (l r : P),
    G.clip p (leftSplitter (G.extent p) (isHoriz (G.extent p)) dMid) = some l →
    G.clip p (rightSplitter (G.extent p) (isHoriz (G.extent p)) dMid) = some r →
    toSet l ∪ toSet r = toSet p ∧ toSet l ∩ toSet r = ∅ ∧
      G.area l + G.area r = G.area p

/-- A successful run started on a missing polygon can only be the base case,
so the missing polygon appears in the emitted trace. -/
theorem recursive_split_none_mem {P : Type} (G : Geom P) (lf : ℕ)
    (coins : ℕ → Bool) (fuel : ℕ) (n : ℤ) (tol : ℚ) (ci : ℕ)
    {trace : List (Option P)} {ci2 b : ℕ}
    (h : recursive_split (P := P) G lf coins fuel none n tol ci = .ok (trace, ci2, b)) :
    none ∈ trace := by
  by_cases h1 : n ≤ 1
  · rw [recursive_split_base G lf coins fuel none n tol ci h1] at h
    simp only [Except.ok.injEq, Prod.mk.injEq] at h
    obtain ⟨ht, -, -⟩ := h
    rw [← ht]
    simp
  · rw [recursive_split_none G lf coins fuel n tol ci h1] at h
    exact absurd h (by simp)

/-- Partition invariant of `recursive_split` under a lawful engine: a
successful run whose trace has no missing polygon emits parts whose areas
sum to the input's area, whose point sets are pairwise disjoint and jointly
cover the input, and each of which is contained in the input. -/
theorem recursive_split_partition_aux {P pt : Type} (G : Geom P)
    (L : GeomLaws G pt) (lf : ℕ) (coins : ℕ → Bool) :
    ∀ (fuel : ℕ) (poly : Option P) (n : ℤ) (tol : ℚ) (ci : ℕ)
      (trace : List (Option P)) (ci2 b : ℕ) (p : P),
      recursive_split G lf coins fuel poly n tol ci = .ok (trace, ci2, b) →
      poly = some p →
      (∀ o ∈ trace, o ≠ none) →
      ((trace.filterMap id).map G.area).sum = G.area p ∧
      partsUnion L.toSet (trace.filterMap id) = L.toSet p ∧
      (trace.filterMap id).Pairwise (fun a b => L.toSet a ∩ L.toSet b = ∅) ∧
      ∀ q ∈ trace.filterMap id, L.toSet q ⊆ L.toSet p := by
  intro fuel
  induction fuel with
  | zero =>
    intro poly n tol ci trace ci2 b p hok hpoly hfull
    subst hpoly
    by_cases h1 : n ≤ 1
    · rw [recursive_split_base G lf coins 0 (some p) n tol ci h1] at hok
      simp only [Except.ok.injEq, Prod.mk.injEq] at hok
      obtain ⟨ht, -, -⟩ := hok
      rw [← ht]
      refine ⟨by simp, by simp [partsUnion], by simp, ?_⟩
      intro q hq
      simp only [List.filterMap_cons, List.filterMap_nil, id, List.mem_singleton] at hq
      subst hq
      exact subset_rfl
    · rw [recursive_split_fuel0 G lf coins p n tol ci h1] at hok
      exact absurd hok (by simp)
  | succ fuel ih =>
    intro poly n tol ci trace ci2 b p hok hpoly hfull
    subst hpoly
    by_cases h1 : n ≤ 1
    · rw [recursive_split_base G lf coins (fuel + 1) (some p) n tol ci h1] at hok
      simp only [Except.ok.injEq, Prod.mk.injEq] at hok
      obtain ⟨ht, -, -⟩ := hok
      rw [← ht]
      refine ⟨by simp, by simp [partsUnion], by simp, ?_⟩
      intro q hq
      simp only [List.filterMap_cons, List.filterMap_nil, id, List.mem_singleton] at hq
      subst hq
      exact subset_rfl
    · cases hsp : split_poly G lf (some p) (split_shares (coins ci) n (G.area p)).1 tol with
      | none =>
        rw [recursive_split_no_split fuel h1 hsp] at hok
        exact absurd hok (by simp)
      | some lrc =>
        obtain ⟨⟨l1, l2⟩, c⟩ := lrc
        cases hL : recursive_split G lf coins fuel l1
            (split_shares (coins ci) n (G.area p)).2.1 tol
            (if n % 2 = 0 then ci else ci + 1) with
        | error e =>
          rw [recursive_split_step_errL fuel h1 hsp hL] at hok
          exact absurd hok (by simp)
        | ok resL =>
          obtain ⟨traceL, ci3, bL⟩ := resL
          cases hR : recursive_split G lf coins fuel l2
              (split_shares (coins ci) n (G.area p)).2.2 tol ci3 with
          | error e =>
            rw [recursive_split_step_errR fuel h1 hsp hL hR] at hok
            exact absurd hok (by simp)
          | ok resR =>
            obtain ⟨traceR, ci4, bR⟩ := resR
            rw [recursive_split_step_ok fuel h1 hsp hL hR] at hok
            simp only [Except.ok.injEq, Prod.mk.injEq] at hok
            obtain ⟨ht, -, -⟩ := hok
            subst ht
            have hfullL : ∀ o ∈ traceL, o ≠ none := fun o ho =>
              hfull o (List.mem_append.mpr (Or.inl ho))
            have hfullR : ∀ o ∈ traceR, o ≠ none := fun o ho =>
              hfull o (List.mem_append.mpr (Or.inr ho))
            obtain ⟨lp, rfl⟩ : ∃ lp, l1 = some lp := by
              cases hc : l1 with
              | none =>
                rw [hc] at hL
                exact absurd rfl (hfullL none (recursive_split_none_mem G lf coins fuel _ tol _ hL))
              | some lp => exact ⟨lp, rfl⟩
            obtain ⟨rp, rfl⟩ : ∃ rp, l2 = some rp := by
              cases hc : l2 with
              | none =>
                rw [hc] at hR
                exact absurd rfl (hfullR none (recursive_split_none_mem G lf coins fuel _ tol _ hR))
              | some rp => exact ⟨rp, rfl⟩
            obtain ⟨-, dMid, hcleft, hcright⟩ :=
              split_poly_some_left G lf p (split_shares (coins ci) n (G.area p)).1 tol
                lp (some rp) c hsp
            obtain ⟨hU, hI, hA⟩ := L.split_partition p dMid lp rp hcleft hcright.symm
            obtain ⟨hsumL, hunL, hpwL, hsubL⟩ :=
              ih (some lp) (split_shares (coins ci) n (G.area p)).2.1 tol
                (if n % 2 = 0 then ci else ci + 1) traceL ci3 bL lp hL rfl hfullL
            obtain ⟨hsumR, hunR, hpwR, hsubR⟩ :=
              ih (some rp) (split_shares (coins ci) n (G.area p)).2.2 tol
                ci3 traceR ci4 bR rp hR rfl hfullR
            refine ⟨?_, ?_, ?_, ?_⟩
            · rw [List.filterMap_append, List.map_append, List.sum_append,
                hsumL, hsumR, hA]
            · rw [List.filterMap_append, partsUnion_append, hunL, hunR, hU]
            · rw [List.filterMap_append, List.pairwise_append]
              refine ⟨hpwL, hpwR, ?_⟩
              intro a ha bq hb
              have hsub : L.toSet a ∩ L.toSet bq ⊆ L.toSet lp ∩ L.toSet rp :=
                Set.inter_subset_inter (hsubL a ha) (hsubR bq hb)
              rw [hI] at hsub
              exact Set.subset_empty_iff.mp hsub
            · intro q hq
              rw [List.filterMap_append] at hq
              rcases List.mem_append.mp hq with hq | hq
              · exact (hsubL q hq).trans (by rw [← hU]; exact Set.subset_union_left)
              · exact (hsubR q hq).trans (by rw [← hU]; exact Set.subset_union_right)

/-- The claim C2 as falsified: the concrete run on `Gdiv` (target `1/2`,
whose clips always return the whole area-`1` polygon) never returns, for any
number of iterations. -/
def split_poly_runs_forever : Prop :=
  ∀ fuel : ℕ, split_poly Gdiv fuel (some ()) (1/2) (5/1000) = none

/-- Every point of a finite point set lies within its computed extent. -/
theorem finExtent_bounds {p : Finset (ℚ × ℚ)} {z : ℚ × ℚ} (hz : z ∈ p) :
    (finExtent p).xmin ≤ z.1 ∧ z.1 ≤ (finExtent p).xmax ∧
    (finExtent p).ymin ≤ z.2 ∧ z.2 ≤ (finExtent p).ymax := by
  have hne : p.Nonempty := ⟨z, hz⟩
  unfold finExtent
  rw [dif_pos hne]
  exact ⟨Finset.inf'_le _ hz, Finset.le_sup' _ hz,
    Finset.inf'_le _ hz, Finset.le_sup' _ hz⟩

/-- The two clip envelopes at any midpoint partition a finite point set:
their clips are disjoint and their union restores the set. -/
theorem finClip_partition (p : Finset (ℚ × ℚ)) (dMid : ℚ) (l r : Finset (ℚ × ℚ))
    (hl : finClip p (leftSplitter (finExtent p) (isHoriz (finExtent p)) dMid) = some l)
    (hr : finClip p (rightSplitter (finExtent p) (isHoriz (finExtent p)) dMid) = some r) :
    l ∪ r = p ∧ Disjoint l r := by
  unfold finClip at hl hr
  simp only [Option.some.injEq] at hl hr
  subst hl hr
  cases hh : isHoriz (finExtent p) with
  | false =>
    simp only [leftSplitter, rightSplitter, hh, if_neg, Bool.false_eq_true,
      not_false_iff, ite_false]
    constructor
    · ext z
      simp only [Finset.mem_union, Finset.mem_filter]
      constructor
      · rintro (⟨hz, -⟩ | ⟨hz, -⟩) <;> exact hz
      · intro hz
        obtain ⟨hx1, hx2, hy1, hy2⟩ := finExtent_bounds hz
        by_cases hc : z.2 ≤ dMid
        · exact Or.inl ⟨hz, by linarith, by linarith, by linarith, hc⟩
        · exact Or.inr ⟨hz, by linarith, by linarith, by linarith [not_le.mp hc], by linarith⟩
    · rw [Finset.disjoint_left]
      intro z hzl hzr
      rw [Finset.mem_filter] at hzl hzr
      obtain ⟨-, -, -, -, hz1⟩ := hzl
      obtain ⟨-, -, -, hz2, -⟩ := hzr
      exact absurd hz1 (not_le.mpr hz2)
  | true =>
    simp only [leftSplitter, rightSplitter, hh, ite_true]
    constructor
    · ext z
      simp only [Finset.mem_union, Finset.mem_filter]
      constructor
      · rintro (⟨hz, -⟩ | ⟨hz, -⟩) <;> exact hz
      · intro hz
        obtain ⟨hx1, hx2, hy1, hy2⟩ := finExtent_bounds hz
        by_cases hc : z.1 ≤ dMid
        · exact Or.inl ⟨hz, by linarith, hc, by linarith, by linarith⟩
        · exact Or.inr ⟨hz, by linarith [not_le.mp hc], by linarith, by linarith, by linarith⟩
    · rw [Finset.disjoint_left]
      intro z hzl hzr
      rw [Finset.mem_filter] at hzl hzr
      obtain ⟨-, -, hz1, -, -⟩ := hzl
      obtain ⟨-, hz2, -, -, -⟩ := hzr
      exact absurd hz1 (not_le.mpr hz2)

/-- The finite-point-set engine is lawful: complementary clips partition. -/
def FinGeomLaws : GeomLaws FinGeom (ℚ × ℚ) where
  toSet := fun p => ↑p
  split_partition := by
    intro p dMid l r hl hr
    obtain ⟨hU, hD⟩ := finClip_partition p dMid l r hl hr
    refine ⟨?_, ?_, ?_⟩
    · rw [← Finset.coe_union, hU]
    · rw [← Finset.coe_inter, Finset.disjoint_iff_inter_eq_empty.mp hD]
      exact Finset.coe_empty
    · have hcard : (l ∪ r).card = l.card + r.card := Finset.card_union_of_disjoint hD
      rw [hU] at hcard
      show (l.card : ℚ) + (r.card : ℚ) = (p.card : ℚ)
      exact_mod_cast hcard.symm

/-! ### Claim theorems -/

/-- C1: the claim says a bisector failure during recursion is propagated to
the caller and the consumer callback is never invoked with missing geometry.
The code does neither: with `num_parts = 2` and a failing `split_poly`, the
run reports success and the consumer callback is invoked twice with `None`
(the dropped geometry); with `num_parts = 4` the failed pieces are recursed
into and the run dies with an `AttributeError` (`crash`) instead of a
surfaced split failure.  This contradicts the spec's explicit requirement,
so it is a bug in the code. -/
theorem C1_failure_not_propagated :
    recursive_split GNone 5 cFalse 5 (some ()) 2 (5/1000) 0 = .ok ([none, none], 0, 1) ∧
    recursive_split GNone 5 cFalse 5 (some ()) 4 (5/1000) 0 = .error .crash := by
  constructor
  · with_unfolding_all rfl
  · with_unfolding_all rfl

/-- C2 counterexample: the claim says the binary-search loop always
terminates (by convergence or interval collapse).  It does not: on the
concrete polygon `Gdiv` — area `1`, target `1/2`, every clip returning the
whole polygon, so the measured ratio is always `2` and never within
tolerance — the loop has not returned after any number of iterations.  The
interval strictly shrinks but never collapses to `lower ≥ upper`, and the
code has no iteration cap. -/
theorem C2_counterexample : split_poly_runs_forever := by
  intro fuel
  have hcl : ∀ e, ∃ q, Gdiv.clip () e = some q ∧
      ¬(|1 - Gdiv.area q / (1/2)| ≤ 5/1000) := by
    intro e
    exact ⟨(), rfl, by norm_num [Gdiv]⟩
  have hstep : split_poly Gdiv fuel (some ()) (1/2) (5/1000) =
      (if Gdiv.area () ≤ 1/2 then some ((none, none), 0)
       else if isHoriz (Gdiv.extent ()) then
         split_search Gdiv () true (Gdiv.extent ()) (1/2) (5/1000)
           (Gdiv.extent ()).xmin (Gdiv.extent ()).xmax fuel
       else
         split_search Gdiv () false (Gdiv.extent ()) (1/2) (5/1000)
           (Gdiv.extent ()).ymin (Gdiv.extent ()).ymax fuel) := rfl
  rw [hstep, if_neg (by norm_num [Gdiv]),
    if_neg (by norm_num [Gdiv, isHoriz, Extent.width, Extent.height])]
  exact split_search_stuck Gdiv () false (Gdiv.extent ()) (1/2) (5/1000) hcl fuel
    (Gdiv.extent ()).ymin (Gdiv.extent ()).ymax (by norm_num [Gdiv])

/-- C2 (amended): termination of `split_poly`'s search loop is not
guaranteed.  Whenever the polygon's area exceeds the target, the search axis
is non-degenerate, and every probed left clip yields a piece whose area
ratio fails the tolerance test, the loop never returns — under exact
arithmetic the interval strictly shrinks but never collapses, and the code
has no iteration cap.  The loop terminates only when some iteration
converges or a left clip returns nothing. -/
theorem C2_search_not_always_terminating {P : Type} (G : Geom P) (p : P)
    (target tol : ℚ) (hA : target < G.area p)
    (hax : if isHoriz (G.extent p) then (G.extent p).xmin < (G.extent p).xmax
           else (G.extent p).ymin < (G.extent p).ymax)
    (hcl : ∀ e, ∃ q, G.clip p e = some q ∧ ¬(|1 - G.area q / target| ≤ tol))
    (fuel : ℕ) :
    split_poly G fuel (some p) target tol = none := by
  have hstep : split_poly G fuel (some p) target tol =
      (if G.area p ≤ target then some ((none, none), 0)
       else if isHoriz (G.extent p) then
         split_search G p true (G.extent p) target tol
           (G.extent p).xmin (G.extent p).xmax fuel
       else
         split_search G p false (G.extent p) target tol
           (G.extent p).ymin (G.extent p).ymax fuel) := rfl
  rw [hstep, if_neg (not_le.mpr hA)]
  by_cases hh : isHoriz (G.extent p)
  · rw [if_pos hh]
    rw [if_pos hh] at hax
    exact split_search_stuck G p true (G.extent p) target tol hcl fuel _ _ hax
  · rw [if_neg hh]
    rw [if_neg hh] at hax
    exact split_search_stuck G p false (G.extent p) target tol hcl fuel _ _ hax

/-- C2 witness: the hypotheses of the non-termination theorem hold at the
concrete geometry `Gdiv`, and the loop has not returned after nine
iterations. -/
theorem C2_witness :
    ((1/2 : ℚ) < Gdiv.area ()) ∧ split_poly Gdiv 9 (some ()) (1/2) (5/1000) = none :=
  ⟨by norm_num [Gdiv],
   C2_search_not_always_terminating Gdiv () (1/2) (5/1000) (by norm_num [Gdiv])
     (by norm_num [Gdiv, isHoriz, Extent.width, Extent.height])
     (fun e => ⟨(), rfl, by norm_num [Gdiv]⟩) 9⟩

/-- C3: if the polygon's area is at most the target area, `split_poly`
returns the failed pair immediately, with zero clip calls beyond the initial
area check. -/
theorem C3_no_split_needed {P : Type} (G : Geom P) (fuel : ℕ) (p : P)
    (target tol : ℚ) (h : G.area p ≤ target) :
    split_poly G fuel (some p) target tol = some ((none, none), 0) := by
  unfold split_poly
  simp [h]

/-- C3 witness: the two-point polygon has area `2 ≤ 5`, and the bisector
returns the failed pair with zero clips. -/
theorem C3_witness :
    FinGeom.area p2 ≤ 5 ∧
    split_poly FinGeom 3 (some p2) 5 (5/1000) = some ((none, none), 0) :=
  ⟨by with_unfolding_all decide,
   C3_no_split_needed FinGeom 3 p2 5 (5/1000) (by with_unfolding_all decide)⟩

/-- C6: at every splitting step (`2 ≤ n`) the share computation used by
`recursive_split` satisfies `leftParts + rightParts = numParts`; for even
`numParts` both sides get `numParts / 2` and the bisector target is half the
polygon area; for odd `numParts` the left side gets either `⌈numParts/2⌉`
(coin true) or `⌊numParts/2⌋` (coin false), the right side the rest, and the
bisector target is `leftParts * (polyArea / numParts)`. -/
theorem C6_split_shares_spec (coin : Bool) (n : ℤ) (A : ℚ) (la : ℚ) (lp rp : ℤ)
    (h : 2 ≤ n) (hs : split_shares coin n A = (la, lp, rp)) :
    lp + rp = n ∧
    (n % 2 = 0 → lp = n / 2 ∧ rp = n / 2 ∧ la = A / 2) ∧
    (n % 2 = 1 →
      (lp = ⌈(n : ℚ) / 2⌉ ∨ lp = ⌊(n : ℚ) / 2⌋) ∧
      rp = n - lp ∧ la = (lp : ℚ) * (A / (n : ℚ))) := by
  unfold split_shares at hs
  by_cases he : n % 2 = 0
  · rw [if_pos he] at hs
    simp only [Prod.mk.injEq] at hs
    obtain ⟨hla, hlp, hrp⟩ := hs
    subst hla hlp hrp
    exact ⟨by omega, fun _ => ⟨rfl, rfl, rfl⟩, fun ho => absurd ho (by omega)⟩
  · rw [if_neg he] at hs
    simp only [Prod.mk.injEq] at hs
    obtain ⟨hla, hlp, hrp⟩ := hs
    subst hla hlp hrp
    refine ⟨by omega, fun he0 => absurd he0 he, fun _ => ⟨?_, rfl, rfl⟩⟩
    obtain ⟨m, rfl⟩ : ∃ m, n = 2 * m + 1 := ⟨n / 2, by omega⟩
    cases coin with
    | true =>
      left
      have h2 : (2 * m + 1 + 1) / 2 = m + 1 := by omega
      rw [if_pos rfl, h2]
      symm
      rw [Int.ceil_eq_iff]
      constructor
      · push_cast
        linarith
      · push_cast
        linarith
    | false =>
      right
      have h2 : (2 * m + 1) / 2 = m := by omega
      rw [if_neg (by simp), h2]
      symm
      rw [Int.floor_eq_iff]
      constructor
      · push_cast
        linarith
      · push_cast
        linarith

/-- C6 witness: at `n = 5`, `A = 10`, coin true, the shares are
`(target 6, left 3, right 2)` and the sides sum to `5`. -/
theorem C6_witness :
    (2 : ℤ) ≤ 5 ∧ split_shares true 5 10 = (6, 3, 2) ∧ (3 : ℤ) + 2 = 5 :=
  ⟨by norm_num, by with_unfolding_all rfl,
   (C6_split_shares_spec true 5 10 6 3 2 (by norm_num)
     (by with_unfolding_all rfl)).1⟩

/-- C4: whenever a `recursive_split` run with `1 ≤ n` parts returns
successfully (in particular on full success of every bisector call), the
consumer callback was invoked exactly `n` times. -/
theorem C4_count_exactness {P : Type} (G : Geom P) (lf : ℕ) (coins : ℕ → Bool) :
    ∀ (fuel : ℕ) (poly : Option P) (n : ℤ) (tol : ℚ) (ci : ℕ)
      (trace : List (Option P)) (ci2 b : ℕ),
      1 ≤ n →
      recursive_split G lf coins fuel poly n tol ci = .ok (trace, ci2, b) →
      (trace.length : ℤ) = n := by
  intro fuel
  induction fuel with
  | zero =>
    intro poly n tol ci trace ci2 b hn hok
    by_cases h1 : n ≤ 1
    · rw [recursive_split_base G lf coins 0 poly n tol ci h1] at hok
      simp only [Except.ok.injEq, Prod.mk.injEq] at hok
      obtain ⟨ht, -, -⟩ := hok
      rw [← ht]
      simp only [List.length_singleton]
      omega
    · cases poly with
      | none => rw [recursive_split_none G lf coins 0 n tol ci h1] at hok; exact absurd hok (by simp)
      | some p => rw [recursive_split_fuel0 G lf coins p n tol ci h1] at hok; exact absurd hok (by simp)
  | succ fuel ih =>
    intro poly n tol ci trace ci2 b hn hok
    by_cases h1 : n ≤ 1
    · rw [recursive_split_base G lf coins (fuel + 1) poly n tol ci h1] at hok
      simp only [Except.ok.injEq, Prod.mk.injEq] at hok
      obtain ⟨ht, -, -⟩ := hok
      rw [← ht]
      simp only [List.length_singleton]
      omega
    · cases poly with
      | none => rw [recursive_split_none G lf coins (fuel + 1) n tol ci h1] at hok; exact absurd hok (by simp)
      | some p =>
        cases hsp : split_poly G lf (some p) (split_shares (coins ci) n (G.area p)).1 tol with
        | none =>
          rw [recursive_split_no_split fuel h1 hsp] at hok
          exact absurd hok (by simp)
        | some lrc =>
          obtain ⟨lr, c⟩ := lrc
          cases hL : recursive_split G lf coins fuel lr.1
              (split_shares (coins ci) n (G.area p)).2.1 tol
              (if n % 2 = 0 then ci else ci + 1) with
          | error e =>
            rw [recursive_split_step_errL fuel h1 hsp hL] at hok
            exact absurd hok (by simp)
          | ok resL =>
            obtain ⟨traceL, ci3, bL⟩ := resL
            cases hR : recursive_split G lf coins fuel lr.2
                (split_shares (coins ci) n (G.area p)).2.2 tol ci3 with
            | error e =>
              rw [recursive_split_step_errR fuel h1 hsp hL hR] at hok
              exact absurd hok (by simp)
            | ok resR =>
              obtain ⟨traceR, ci4, bR⟩ := resR
              rw [recursive_split_step_ok fuel h1 hsp hL hR] at hok
              simp only [Except.ok.injEq, Prod.mk.injEq] at hok
              obtain ⟨ht, -, -⟩ := hok
              have hb := split_shares_pos (coins ci) n (G.area p) (by omega)
              have hLlen := ih lr.1 (split_shares (coins ci) n (G.area p)).2.1 tol
                (if n % 2 = 0 then ci else ci + 1) traceL ci3 bL hb.1 hL
              have hRlen := ih lr.2 (split_shares (coins ci) n (G.area p)).2.2 tol
                ci3 traceR ci4 bR hb.2.1 hR
              rw [← ht]
              simp only [List.length_append]
              push_cast
              omega

/-- C4 witness: splitting the two-point polygon into two parts succeeds and
emits exactly two parts. -/
theorem C4_witness :
    (1 : ℤ) ≤ 2 ∧
    recursive_split FinGeom 5 cFalse 5 (some p2) 2 (5/1000) 0 =
      .ok ([some p2L, some p2R], 0, 1) ∧
    (([some p2L, some p2R] : List (Option (Finset (ℚ × ℚ)))).length : ℤ) = 2 :=
  ⟨by norm_num, by with_unfolding_all rfl,
   C4_count_exactness FinGeom 5 cFalse 5 (some p2) 2 (5/1000) 0
     [some p2L, some p2R] 0 1 (by norm_num) (by with_unfolding_all rfl)⟩

/-- C5: under a lawful engine (complementary clips partition the polygon
exactly), a fully successful run — success with no missing part in the
trace — emits parts whose areas sum exactly to the input polygon's area
(hence within the claimed `O(n·tol·area)` bound), whose point sets are
pairwise non-overlapping, and which jointly cover the input polygon. -/
theorem C5_partition_conservation {P pt : Type} (G : Geom P) (L : GeomLaws G pt)
    (lf : ℕ) (coins : ℕ → Bool) (fuel : ℕ) (p : P) (n : ℤ) (tol : ℚ) (ci : ℕ)
    (trace : List (Option P)) (ci2 b : ℕ)
    (hok : recursive_split G lf coins fuel (some p) n tol ci = .ok (trace, ci2, b))
    (hfull : ∀ o ∈ trace, o ≠ none) :
    ((trace.filterMap id).map G.area).sum = G.area p ∧
    partsUnion L.toSet (trace.filterMap id) = L.toSet p ∧
    (trace.filterMap id).Pairwise (fun a b => L.toSet a ∩ L.toSet b = ∅) := by
  obtain ⟨h1, h2, h3, -⟩ :=
    recursive_split_partition_aux G L lf coins fuel (some p) n tol ci
      trace ci2 b p hok rfl hfull
  exact ⟨h1, h2, h3⟩

/-- C5 witness: the two-part split of the two-point polygon under the lawful
finite-point-set engine: the run succeeds with no missing part, the two
emitted parts' areas sum to the polygon's area `2`, their point sets are
disjoint and their union restores the polygon. -/
theorem C5_witness :
    recursive_split FinGeom 5 cFalse 5 (some p2) 2 (5/1000) 0 =
      .ok ([some p2L, some p2R], 0, 1) ∧
    ((([some p2L, some p2R] : List (Option (Finset (ℚ × ℚ)))).filterMap id).map
      FinGeom.area).sum = FinGeom.area p2 ∧
    partsUnion FinGeomLaws.toSet
      (([some p2L, some p2R] : List (Option (Finset (ℚ × ℚ)))).filterMap id) =
      FinGeomLaws.toSet p2 ∧
    (([some p2L, some p2R] : List (Option (Finset (ℚ × ℚ)))).filterMap id).Pairwise
      (fun a b => FinGeomLaws.toSet a ∩ FinGeomLaws.toSet b = ∅) := by
  have hok : recursive_split FinGeom 5 cFalse 5 (some p2) 2 (5/1000) 0 =
      .ok ([some p2L, some p2R], 0, 1) := by with_unfolding_all rfl
  have hfull : ∀ o ∈ ([some p2L, some p2R] : List (Option (Finset (ℚ × ℚ)))),
      o ≠ none := by
    intro o ho
    simp only [List.mem_cons, List.not_mem_nil, or_false] at ho
    rcases ho with rfl | rfl <;> exact Option.some_ne_none _
  obtain ⟨h1, h2, h3⟩ := C5_partition_conservation FinGeom FinGeomLaws 5 cFalse 5
    p2 2 (5/1000) 0 [some p2L, some p2R] 0 1 hok hfull
  exact ⟨hok, h1, h2, h3⟩

/-- C8: whenever `split_poly` returns a result with a present left piece,
that piece's area is within the search tolerance of the target
(`|1 - left.area/targetArea| ≤ searchTolerance`), and at the converged
midpoint the left piece is the clip of the input polygon against the left
envelope while the right component is exactly the raw clip of the same
polygon against the complementary right envelope. -/
theorem C8_convergence_spec {P : Type} (G : Geom P) (fuel : ℕ) (p : P)
    (target tol : ℚ) (l : P) (r : Option P) (c : ℕ)
    (h : split_poly G fuel (some p) target tol = some ((some l, r), c)) :
    |1 - G.area l / target| ≤ tol ∧
    ∃ dMid, G.clip p (leftSplitter (G.extent p) (isHoriz (G.extent p)) dMid) = some l ∧
      r = G.clip p (rightSplitter (G.extent p) (isHoriz (G.extent p)) dMid) :=
  split_poly_some_left G fuel p target tol l r c h

/-- C8 witness: the successful bisection of the two-point polygon at target
`1`: the left piece is within tolerance of the target. -/
theorem C8_witness :
    split_poly FinGeom 5 (some p2) 1 (5/1000) = some ((some p2L, some p2R), 2) ∧
    |1 - FinGeom.area p2L / 1| ≤ 5/1000 :=
  ⟨by with_unfolding_all rfl,
   (C8_convergence_spec FinGeom 5 p2 1 (5/1000) p2L (some p2R) 2
     (by with_unfolding_all rfl)).1⟩

/-- C7: with `num_parts ≤ 1` the partitioner invokes the consumer exactly
once, with the input polygon itself, and makes zero bisector calls. -/
theorem C7_base_case {P : Type} (G : Geom P) (lf : ℕ) (coins : ℕ → Bool)
    (fuel : ℕ) (poly : Option P) (n : ℤ) (tol : ℚ) (ci : ℕ) (h : n ≤ 1) :
    recursive_split G lf coins fuel poly n tol ci = .ok ([poly], ci, 0) := by
  rw [recursive_split.eq_def]
  exact if_pos h

/-- C7 witness: partitioning the two-point polygon into one part emits it
unchanged with zero bisector calls. -/
theorem C7_witness :
    (1 : ℤ) ≤ 1 ∧
    recursive_split FinGeom 3 cFalse 3 (some p2) 1 (5/1000) 0 = .ok ([some p2], 0, 0) :=
  ⟨le_refl 1, C7_base_case FinGeom 3 cFalse 3 (some p2) 1 (5/1000) 0 (le_refl 1)⟩

/-- C9 counterexample: the claim says zero/negative `num_parts` or a
zero-area polygon fail fast before any recursion, producing no output.  In
fact `num_parts = 0` is treated as the base case and the polygon is emitted,
and a zero-area polygon with `num_parts = 2` leads to a (vacuously
successful) split whose `None` pieces are emitted — output is produced and
no failure is raised in either case. -/
theorem C9_counterexample :
    recursive_split FinGeom 5 cFalse 5 (some p2) 0 (5/1000) 0 = .ok ([some p2], 0, 0) ∧
    recursive_split FinGeom 5 cFalse 5 (some (∅ : Finset (ℚ × ℚ))) 2 (5/1000) 0 =
      .ok ([none, none], 0, 1) := by
  constructor
  · with_unfolding_all rfl
  · with_unfolding_all rfl

/-- C9 (amended): no input validation is performed: any `num_parts ≤ 0` is
handled by the base case — the consumer is invoked once with the input
polygon and no recursion or bisector call occurs. -/
theorem C9_no_input_validation {P : Type} (G : Geom P) (lf : ℕ)
    (coins : ℕ → Bool) (fuel : ℕ) (poly : Option P) (n : ℤ) (tol : ℚ) (ci : ℕ)
    (h : n ≤ 0) :
    recursive_split G lf coins fuel poly n tol ci = .ok ([poly], ci, 0) := by
  rw [recursive_split.eq_def]
  exact if_pos (by omega)

/-- C9 witness: a negative part count is accepted and emits the polygon. -/
theorem C9_witness :
    (-3 : ℤ) ≤ 0 ∧
    recursive_split FinGeom 2 cFalse 2 (some p2) (-3) (5/1000) 0 = .ok ([some p2], 0, 0) :=
  ⟨by norm_num, C9_no_input_validation FinGeom 2 cFalse 2 (some p2) (-3) (5/1000) 0 (by norm_num)⟩

/-- C10: on a successful split only the left piece is validated; the right
piece is the raw clip result, so `split_poly` can return a present left
piece paired with an absent right piece: in `GOne` the left clip meets the
tolerance exactly and the right clip returns nothing. -/
theorem C10_right_piece_unchecked :
    split_poly GOne 3 (some 0) 1 (5/1000) = some ((some 1, none), 2) := by
  with_unfolding_all rfl

end SmartpyArc
